import Mathlib

/-!
Verification of the in-memory data model of a Facebook message history
(`fb_chat.py`): `Message`, `Thread` and `Chat`, their ordering, merging,
renumbering, range queries, substring search and key lookup.

Embedding conventions:
* `datetime.datetime` values are embedded as `Int` (minutes); the only
  operations the code uses on them are total-order comparisons and adding
  `datetime.timedelta(1)`, i.e. 24 hours = 1440 minutes.
* Python `int` is embedded as `Int`, Python strings used only for equality
  as `String`, and message bodies as `List Char` so that `str.replace`,
  `str.lower` and substring search can be modelled character by character.
* Python's sort (`sorted`, which only calls `__lt__`) is embedded for
  message lists as CPython's own algorithm (initial run plus binary
  insertion, exact for fewer than 64 elements), and for the thread list as
  a stable merge sort: `threadGe` is a total preorder, on which every
  stable sort — CPython's included — produces the same list.
* Fallible operations (`dict[k]`, `list[i]`) return `Except PyErr`.
-/

namespace FbChat

/-- One day in the embedded time scale: `datetime.timedelta(1)` = 1440 minutes. -/
def oneDay : Int := 1440

/-- `Message` from `fb_chat.py`: thread label, author, timestamp, body text and
the thread-local sequence number `_num`. -/
structure Message where
  thread_name : String
  author : String
  date_time : Int
  text : List Char
  num : Int
  deriving DecidableEq, Repr

/-- `Message.__lt__`: order by timestamp; on equal timestamps compare sequence
numbers, except that a gap of more than 9000 (a wrap-around between numbering
blocks) makes the comparison return `False` unconditionally. -/
def msgLt (a b : Message) : Bool :=
  if a.date_time = b.date_time then
    if 9000 < (a.num - b.num).natAbs then false
    else decide (a.num < b.num)
  else decide (a.date_time < b.date_time)

/-- `Message.__gt__`: order by timestamp; on equal timestamps compare sequence
numbers, except that a gap of more than 9000 makes the comparison return
`True` unconditionally. -/
def msgGt (a b : Message) : Bool :=
  if a.date_time = b.date_time then
    if 9000 < (a.num - b.num).natAbs then true
    else decide (a.num > b.num)
  else decide (a.date_time > b.date_time)

/-- `Message.__eq__`: equal number, author, timestamp and text
(`thread_name` is not compared). -/
def msgEq (a b : Message) : Bool :=
  decide (a.num = b.num ∧ a.author = b.author ∧
    a.date_time = b.date_time ∧ a.text = b.text)

/-- The non-strict comparison Python's stable sort effectively uses:
`a` may stay before `b` iff `not (b < a)`. -/
def msgLe (a b : Message) : Bool := !(msgLt b a)

/-!
CPython's list sort (Timsort), in the regime the program exercises:
`sorted` first finds a maximal initial run — strictly descending (then
reversed in place) or non-descending — and, for lists shorter than 64
(where `minrun = n`), binary-inserts every remaining element into the
growing sorted prefix (`binarysort`).  Longer inputs merge such runs,
which yields the same list whenever the comparison is a total preorder —
the regime of every sortedness theorem below; the concrete lists this
development evaluates are far below 64 elements.
-/

section PySort

variable {α : Type}

/-- The binary search of CPython's `binarysort`: locate the rightmost stable
insertion position of `pivot` between `l` and `r` in the sorted prefix `a`,
probing `mid = (l + r) / 2` and moving `r := mid` when `pivot < a[mid]`,
else `l := mid + 1`.  The `fuel` argument only drives structural recursion;
any value at least `r - l` yields the loop result. -/
def binSearchGo (lt : α → α → Bool) (pivot : α) (a : List α) :
    Nat → Nat → Nat → Nat
  | 0, l, _ => l
  | fuel + 1, l, r =>
    if l < r then
      if lt pivot (a.getD ((l + r) / 2) pivot) then
        binSearchGo lt pivot a fuel l ((l + r) / 2)
      else
        binSearchGo lt pivot a fuel ((l + r) / 2 + 1) r
    else l

/-- The insertion position of `pivot` in the sorted prefix `a`. -/
def binSearchPos (lt : α → α → Bool) (pivot : α) (a : List α) : Nat :=
  binSearchGo lt pivot a a.length 0 a.length

/-- One `binarysort` step: insert `pivot` into the sorted prefix `pre` at
the binary-search position. -/
def binInsert (lt : α → α → Bool) (pre : List α) (pivot : α) : List α :=
  pre.take (binSearchPos lt pivot pre) ++
    pivot :: pre.drop (binSearchPos lt pivot pre)

/-- `binarysort`: insert the pending elements into the prefix one by one. -/
def binInsertAll (lt : α → α → Bool) (pre : List α) : List α → List α
  | [] => pre
  | x :: rest => binInsertAll lt (binInsert lt pre x) rest

/-- `count_run`, ascending case: extend while the next element is not less
than the previous one; returns the run continuation and the remainder. -/
def ascRun (lt : α → α → Bool) (prev : α) : List α → List α × List α
  | [] => ([], [])
  | x :: rest =>
    if lt x prev then ([], x :: rest)
    else (x :: (ascRun lt x rest).1, (ascRun lt x rest).2)

/-- `count_run`, strictly descending case: extend while the next element is
less than the previous one. -/
def descRun (lt : α → α → Bool) (prev : α) : List α → List α × List α
  | [] => ([], [])
  | x :: rest =>
    if lt x prev then (x :: (descRun lt x rest).1, (descRun lt x rest).2)
    else ([], x :: rest)

/-- CPython's `sorted` on fewer than 64 elements: find the initial run
(a strictly descending run is reversed), then `binarysort` the rest. -/
def pyTimSort (lt : α → α → Bool) : List α → List α
  | [] => []
  | [a] => [a]
  | a :: b :: rest =>
    if lt b a then
      binInsertAll lt (a :: b :: (descRun lt b rest).1).reverse
        (descRun lt b rest).2
    else
      binInsertAll lt (a :: b :: (ascRun lt b rest).1) (ascRun lt b rest).2

end PySort

/-- `sorted(list_of_messages)`: CPython's sort driven by `Message.__lt__`. -/
def pySortMsgs (l : List Message) : List Message := pyTimSort msgLt l

/-- Hypotheses under which the message comparison behaves as a genuine total
(pre)order on a pair: equal timestamps never put the pair across the 9000
wrap-around gap, and equal timestamp plus equal sequence number forces the
remaining `__eq__` fields to agree. -/
def okPair (a b : Message) : Prop :=
  (a.date_time = b.date_time → (a.num - b.num).natAbs ≤ 9000) ∧
  (a.date_time = b.date_time → a.num = b.num →
    a.author = b.author ∧ a.text = b.text)

instance (a b : Message) : Decidable (okPair a b) := by
  unfold okPair; infer_instance

/-- `Message.sent_between(start, end)`: inclusive on both ends; a missing
`end` defaults to `start + timedelta(1)`. -/
def sentBetween (m : Message) (start : Int) (stop : Option Int) : Bool :=
  let e := match stop with
    | some e => e
    | none => start + oneDay
  decide (start ≤ m.date_time ∧ m.date_time ≤ e)

/-- Python `str.lower`, character by character (`Char.toLower` models the
case folding the code relies on for its ASCII search strings). -/
def pyLower (s : List Char) : List Char := s.map Char.toLower

/-- Python's substring test `s in t`: some slice of `t` of the length of `s`
equals `s`. -/
def containsStr (t s : List Char) : Bool :=
  (List.range (t.length + 1)).any fun i => (t.drop i).take s.length == s

/-- `Message.contains(search_string, ignore_case)`: substring test, lowering
both sides first when `ignore_case` is set. -/
def msgContains (m : Message) (s : List Char) (ignore_case : Bool) : Bool :=
  if ignore_case then containsStr (pyLower m.text) (pyLower s)
  else containsStr m.text s

/-- Python `str.replace(pat, repl)` for a nonempty pattern, scanning left to
right and replacing non-overlapping occurrences.  Both call sites in
`Message.__len__` use nonempty literal patterns. -/
def pyReplace (s pat repl : List Char) : List Char :=
  match s with
  | [] => []
  | c :: rest =>
    if h : 0 < pat.length ∧ (c :: rest).take pat.length = pat then
      repl ++ pyReplace ((c :: rest).drop pat.length) pat repl
    else
      c :: pyReplace rest pat repl
termination_by s.length
decreasing_by
  · have h1 : pat.length ≤ rest.length + 1 := by
      have := congrArg List.length h.2
      simp only [List.length_take, List.length_cons] at this
      omega
    have h2 := h.1
    simp only [List.length_drop, List.length_cons]
    omega
  · simp

/-- The literal newline placeholder the export writes into message bodies. -/
def nlTok : List Char := "<|NEWLINE|>".toList

/-- A quote character, named for readability in patterns below. -/
def Chr.q : Char := '"'

/-- `Message.__len__`: length of the text after deleting every occurrence of
the newline placeholder and collapsing every doubled quote to a single one. -/
def msgLen (m : Message) : Nat :=
  (pyReplace (pyReplace m.text nlTok []) [Chr.q, Chr.q] [Chr.q]).length

/-- `Thread` from `fb_chat.py`: participants and the message list.
`people_str` is derived by `threadLabel` below. -/
structure Thread where
  people : List String
  messages : List Message
  deriving DecidableEq, Repr

/-- `", ".join(thread.people)`: the label `Thread.__init__` stores as
`people_str` and `Chat.__init__` uses as dictionary key. -/
def threadLabel (t : Thread) : String := String.intercalate ", " t.people

/-- `Thread.__init__`: store the participants and the sorted messages. -/
def mkThread (people : List String) (messages : List Message) : Thread :=
  ⟨people, pySortMsgs messages⟩

/-- `Thread._add_messages`: extend the list with the new messages, then
re-sort. -/
def addMessages (t : Thread) (new : List Message) : Thread :=
  { t with messages := pySortMsgs (t.messages ++ new) }

/-- `Thread._renumber_messages`, as the pure list transformation: assign
`_num := i` to the i-th message, `i` starting at `start` (called with 1)
and incrementing by 1, leaving everything else unchanged. -/
def renumberFrom (start : Int) : List Message → List Message
  | [] => []
  | m :: rest => { m with num := start } :: renumberFrom (start + 1) rest

/-- The comparison `sorted(threads, key=len, reverse=True)` effectively uses:
thread `a` may stay before thread `b` iff `len(b) <= len(a)`. -/
def threadGe (a b : Thread) : Bool := decide (b.messages.length ≤ a.messages.length)

/-- `Chat` from `fb_chat.py`: the owner's name and the sorted thread list
(`_thread_dict`, `_total_messages` and `_all_people` are derived data). -/
structure Chat where
  myname : String
  threads : List Thread
  deriving DecidableEq, Repr

/-- `Chat.__init__`: store the threads sorted by descending message count
(Python's stable sort with `key=len, reverse=True`). -/
def mkChat (myname : String) (threads : List Thread) : Chat :=
  ⟨myname, threads.mergeSort threadGe⟩

/-- The key/error model for `Chat.__getitem__`: Python keys that are exactly
`int`, exactly `str`, or of any other type. -/
inductive PyKey where
  | int (i : Int)
  | str (s : String)
  | other
  deriving DecidableEq, Repr

/-- Exceptions `Chat.__getitem__` can raise. -/
inductive PyErr where
  | keyError
  | indexError
  deriving DecidableEq, Repr

/-- Python list indexing `l[i]`: negative indices count from the end,
anything out of range raises `IndexError`. -/
def pyIndex {α : Type} (l : List α) (i : Int) : Except PyErr α :=
  let j := if i < 0 then i + l.length else i
  if h : 0 ≤ j ∧ j.toNat < l.length then .ok (l.get ⟨j.toNat, h.2⟩)
  else .error .indexError

/-- `Chat._thread_dict[k]`: the dict is built over `self.threads` in order
with `", ".join(thread.people)` as key, so a lookup returns the last thread
carrying the label, and raises `KeyError` when no thread does. -/
def threadDictGet (c : Chat) (k : String) : Except PyErr Thread :=
  match c.threads.reverse.find? (fun t => threadLabel t == k) with
  | some t => .ok t
  | none => .error .keyError

/-- `Chat.__getitem__`: dispatch on the key's type; an `int` indexes the
thread list, a `str` looks up the dict, and any other type falls through
both branches so the method returns `None`. -/
def chatGetItem (c : Chat) : PyKey → Except PyErr (Option Thread)
  | .int i => (pyIndex c.threads i).map some
  | .str k => (threadDictGet c k).map some
  | .other => .ok none

/-- Deletion of every newline-placeholder occurrence, stated on its own for
comparison with `Message.__len__`: an occurrence contributes zero characters. -/
def removeNl : List Char → List Char
  | [] => []
  | c :: rest =>
    if h : (c :: rest).take 11 = nlTok then removeNl ((c :: rest).drop 11)
    else c :: removeNl rest
termination_by t => t.length
decreasing_by
  · have h1 : nlTok.length ≤ rest.length + 1 := by
      have := congrArg List.length h
      simp only [List.length_take, List.length_cons] at this
      omega
    have h2 : nlTok.length = 11 := rfl
    simp only [List.length_drop, List.length_cons]
    omega
  · simp

/-- Collapsing every doubled quote to a single quote, stated as a direct
two-character scan for comparison with `Message.__len__`. -/
def collapseQuotes : List Char → List Char
  | '"' :: '"' :: rest => '"' :: collapseQuotes rest
  | c :: rest => c :: collapseQuotes rest
  | [] => []

/-! Concrete fixtures used by the counterexample and witness theorems. -/

/-- A message on the high side of a 9000 wrap-around gap. -/
def mWrapHi : Message := ⟨"T", "A", 0, [], 10000⟩

/-- A message on the low side of a 9000 wrap-around gap. -/
def mWrapLo : Message := ⟨"T", "A", 0, [], 1⟩

/-- A message between the two wrap-around blocks, within 9000 of both. -/
def mMid : Message := ⟨"T", "A", 0, [], 5000⟩

/-- Two distinct messages sharing timestamp and sequence number. -/
def mDupA : Message := ⟨"T", "A", 0, ['x'], 7⟩

/-- Second message of the duplicate-number pair: different author and text. -/
def mDupB : Message := ⟨"T", "B", 0, ['y'], 7⟩

/-- The spec's `Message.__len__` example text: `He said ""hi""<|NEWLINE|>bye`. -/
def exText : List Char := "He said \"\"hi\"\"<|NEWLINE|>bye".toList

/-- A message carrying the length-normalization example text. -/
def exMsg : Message := ⟨"T", "A", 0, exText, 1⟩

/-- A message whose text contains `hello` in lower case only. -/
def helloMsg : Message := ⟨"T", "A", 0, "say hello".toList, 1⟩

/-- A trivial message used to populate fixture threads. -/
def m0 : Message := ⟨"T", "A", 0, [], 1⟩

/-- Fixture thread with 5 messages. -/
def thA5 : Thread := ⟨["A"], List.replicate 5 m0⟩

/-- First fixture thread with 3 messages. -/
def thB3 : Thread := ⟨["B"], List.replicate 3 m0⟩

/-- Second fixture thread with 3 messages. -/
def thC3 : Thread := ⟨["C"], List.replicate 3 m0⟩

/-- Fixture thread with 8 messages. -/
def thD8 : Thread := ⟨["D"], List.replicate 8 m0⟩

/-- An initially empty two-person thread. -/
def thEmpty : Thread := mkThread ["A", "B"] []

/-- Fixture thread for the lookup witnesses; its label is `Alice, Bob`. -/
def thAB : Thread := ⟨["Alice", "Bob"], []⟩

/-- Witness messages for the range and renumbering claims. -/
def wmA : Message := ⟨"T", "A", 0, [], 1⟩

/-- Second witness message, one day after `wmA` with the next number. -/
def wmB : Message := ⟨"T", "B", oneDay, [], 2⟩

/-! ### The message comparison, characterized away from the wrap-around gap -/

/-- Away from the wrap-around gap, `__lt__` is the strict lexicographic
comparison of timestamp then sequence number. -/
theorem msgLt_char (a b : Message)
    (h : a.date_time = b.date_time → (a.num - b.num).natAbs ≤ 9000) :
    msgLt a b = decide (a.date_time < b.date_time ∨
      (a.date_time = b.date_time ∧ a.num < b.num)) := by
  unfold msgLt
  split_ifs with h1 h2
  · exact absurd (h h1) (by omega)
  · simp [h1]
  · simp [h1]

/-- Away from the wrap-around gap, `__gt__` is the reversed strict
lexicographic comparison. -/
theorem msgGt_char (a b : Message)
    (h : a.date_time = b.date_time → (a.num - b.num).natAbs ≤ 9000) :
    msgGt a b = decide (b.date_time < a.date_time ∨
      (a.date_time = b.date_time ∧ b.num < a.num)) := by
  unfold msgGt
  split_ifs with h1 h2
  · exact absurd (h h1) (by omega)
  · simp [h1]
  · simp [h1]

/-- Away from the wrap-around gap, the non-strict comparison the sort uses is
the lexicographic `≤`. -/
theorem msgLe_char (a b : Message)
    (h : b.date_time = a.date_time → (b.num - a.num).natAbs ≤ 9000) :
    msgLe a b = decide (a.date_time < b.date_time ∨
      (a.date_time = b.date_time ∧ a.num ≤ b.num)) := by
  unfold msgLe
  rw [msgLt_char b a h, ← decide_not]
  apply decide_eq_decide.mpr
  omega

/-- C1 (amended): the message comparison is a total order on any set of
messages in which equal timestamps keep sequence numbers within the 9000
wrap-around threshold and in which equal timestamp plus equal sequence number
forces equal author and text: exactly one of `a<b`, `a==b`, `a>b` holds,
less-than is transitive, and `a!=b` implies exactly one of `a<b`, `a>b`.
(As stated over all messages the claim fails; see the counterexample.) -/
theorem msg_order_total_on_compatible (a b c : Message)
    (hab : okPair a b) (hac : okPair a c) (hbc : okPair b c) :
    ((msgLt a b = true ∧ msgEq a b = false ∧ msgGt a b = false) ∨
      (msgLt a b = false ∧ msgEq a b = true ∧ msgGt a b = false) ∨
      (msgLt a b = false ∧ msgEq a b = false ∧ msgGt a b = true)) ∧
    (msgLt a b = true → msgLt b c = true → msgLt a c = true) ∧
    (msgEq a b = false →
      ((msgLt a b = true ∧ msgGt a b = false) ∨
        (msgLt a b = false ∧ msgGt a b = true))) := by
  obtain ⟨hab1, hab2⟩ := hab
  obtain ⟨hac1, _⟩ := hac
  obtain ⟨hbc1, _⟩ := hbc
  have lt_ab := msgLt_char a b hab1
  have gt_ab := msgGt_char a b hab1
  have lt_bc := msgLt_char b c hbc1
  have lt_ac := msgLt_char a c hac1
  by_cases heq : a.date_time = b.date_time ∧ a.num = b.num
  · have heqt : msgEq a b = true := by
      have h2 := hab2 heq.1 heq.2
      simp [msgEq, heq.1, heq.2, h2.1, h2.2]
    refine ⟨Or.inr (Or.inl ⟨?_, heqt, ?_⟩), ?_, ?_⟩
    · rw [lt_ab]; simp; omega
    · rw [gt_ab]; simp; omega
    · rw [lt_ab, lt_bc, lt_ac]; simp only [decide_eq_true_eq]
      intro h1 h2; omega
    · intro hfalse; rw [heqt] at hfalse; cases hfalse
  · have heqf : msgEq a b = false := by
      simp only [msgEq, decide_eq_false_iff_not]
      intro hcon
      exact heq ⟨hcon.2.2.1, hcon.1⟩
    have tri : (msgLt a b = true ∧ msgGt a b = false) ∨
        (msgLt a b = false ∧ msgGt a b = true) := by
      rw [lt_ab, gt_ab]
      simp only [decide_eq_true_eq, decide_eq_false_iff_not]
      omega
    refine ⟨?_, ?_, fun _ => tri⟩
    · rcases tri with ⟨h1, h2⟩ | ⟨h1, h2⟩
      · exact Or.inl ⟨h1, heqf, h2⟩
      · exact Or.inr (Or.inr ⟨h1, heqf, h2⟩)
    · rw [lt_ab, lt_bc, lt_ac]; simp only [decide_eq_true_eq]
      intro h1 h2; omega

/-- C1 counterexample: over the full message type the claimed total order
fails at concrete inputs.  Less-than is not transitive across the 9000 gap
(`1 < 5000` and `5000 < 10000` hold but `1 < 10000` does not), and for two
unequal messages sharing timestamp and sequence number none of `<`, `==`,
`>` holds. -/
theorem msg_order_cex :
    (msgLt mWrapLo mMid = true ∧ msgLt mMid mWrapHi = true ∧
      msgLt mWrapLo mWrapHi = false) ∧
    (msgEq mDupA mDupB = false ∧ msgLt mDupA mDupB = false ∧
      msgGt mDupA mDupB = false) := by decide

/-- C1 witness: the amended theorem applied to a concrete compatible triple. -/
theorem msg_order_total_on_compatible_witness :
    msgLt wmA mMid = true :=
  (msg_order_total_on_compatible wmA mDupA mMid (by decide) (by decide)
    (by decide)).2.1 (by decide) (by decide)

/-- C2 (amended): in the wrap-around case (equal timestamps, sequence numbers
more than 9000 apart) `a < b` is `False` and `a > b` is `True`
unconditionally, irrespective of which sequence number is larger — not the
inverse of the numeric comparison the claim describes. -/
theorem msgLt_wrap_gap (a b : Message) (hdt : a.date_time = b.date_time)
    (hgap : 9000 < (a.num - b.num).natAbs) :
    msgLt a b = false ∧ msgGt a b = true := by
  unfold msgLt msgGt
  simp [hdt, hgap]

/-- C2 counterexample: a wrap-around pair where `a` has the larger sequence
number, so the claim demands `a < b = True`, but the code returns `False`. -/
theorem msgLt_wrap_cex :
    mWrapHi.date_time = mWrapLo.date_time ∧
    9000 < (mWrapHi.num - mWrapLo.num).natAbs ∧
    mWrapLo.num < mWrapHi.num ∧
    msgLt mWrapHi mWrapLo = false := by decide

/-- C2 witness: the amended theorem applied to a concrete wrap-around pair. -/
theorem msgLt_wrap_gap_witness :
    msgLt mWrapHi mWrapLo = false ∧ msgGt mWrapHi mWrapLo = true :=
  msgLt_wrap_gap mWrapHi mWrapLo (by decide) (by decide)

/-! ### String replacement bridged to direct scans (for `Message.__len__`) -/

theorem pyReplace_nil (pat repl : List Char) : pyReplace [] pat repl = [] := by
  rw [pyReplace]

theorem pyReplace_cons (c : Char) (rest pat repl : List Char) :
    pyReplace (c :: rest) pat repl =
      if 0 < pat.length ∧ (c :: rest).take pat.length = pat then
        repl ++ pyReplace ((c :: rest).drop pat.length) pat repl
      else c :: pyReplace rest pat repl := by
  rw [pyReplace, dite_eq_ite]

theorem removeNl_nil : removeNl [] = [] := by
  rw [removeNl]

theorem removeNl_cons (c : Char) (rest : List Char) :
    removeNl (c :: rest) =
      if (c :: rest).take 11 = nlTok then removeNl ((c :: rest).drop 11)
      else c :: removeNl rest := by
  rw [removeNl, dite_eq_ite]

theorem nlTok_len : nlTok.length = 11 := rfl

theorem pyReplace_nl (t : List Char) : pyReplace t nlTok [] = removeNl t := by
  have key : ∀ (n : Nat) (t : List Char), t.length ≤ n →
      pyReplace t nlTok [] = removeNl t := by
    intro n
    induction n with
    | zero =>
      intro t ht
      have ht0 : t = [] := by
        cases t with
        | nil => rfl
        | cons c r => simp at ht
      subst ht0
      rw [pyReplace_nil, removeNl_nil]
    | succ n ih =>
      intro t ht
      cases t with
      | nil => rw [pyReplace_nil, removeNl_nil]
      | cons c rest =>
        rw [pyReplace_cons, removeNl_cons, nlTok_len]
        by_cases hm : (c :: rest).take 11 = nlTok
        · rw [if_pos ⟨by norm_num, hm⟩, if_pos hm, List.nil_append]
          apply ih
          simp only [List.length_drop, List.length_cons] at *
          omega
        · rw [if_neg (fun hcon => hm hcon.2), if_neg hm]
          congr 1
          apply ih
          simp only [List.length_cons] at ht
          omega
  exact key t.length t le_rfl



theorem collapseQuotes_nil : collapseQuotes [] = [] := rfl

theorem collapseQuotes_pair (rest : List Char) :
    collapseQuotes (Chr.q :: Chr.q :: rest) = Chr.q :: collapseQuotes rest := rfl

theorem collapseQuotes_single (c : Char) : collapseQuotes [c] = [c] := by
  rw [collapseQuotes.eq_def]
  split
  · rename_i heq
    injection heq with h1 h2
    injection h2
  · rename_i heq
    injection heq with h1 h2
    subst h2
    rw [h1, collapseQuotes_nil]
  · rename_i heq
    cases heq

theorem collapseQuotes_cons_cons (c d : Char) (rest : List Char)
    (hne : ¬(c = Chr.q ∧ d = Chr.q)) :
    collapseQuotes (c :: d :: rest) = c :: collapseQuotes (d :: rest) := by
  rw [collapseQuotes.eq_def]
  split
  · rename_i heq
    injection heq with h1 h2
    injection h2 with h2 h3
    exact absurd ⟨h1, h2⟩ hne
  · rename_i heq
    injection heq with h1 h2
    rw [h1, h2]
  · rename_i heq
    cases heq

theorem pyReplace_qq (t : List Char) :
    pyReplace t [Chr.q, Chr.q] [Chr.q] = collapseQuotes t := by
  have key : ∀ (n : Nat) (t : List Char), t.length ≤ n →
      pyReplace t [Chr.q, Chr.q] [Chr.q] = collapseQuotes t := by
    intro n
    induction n with
    | zero =>
      intro t ht
      have ht0 : t = [] := by
        cases t with
        | nil => rfl
        | cons c r => simp at ht
      subst ht0
      rw [pyReplace_nil, collapseQuotes_nil]
    | succ n ih =>
      intro t ht
      cases t with
      | nil => rw [pyReplace_nil, collapseQuotes_nil]
      | cons c rest =>
        cases rest with
        | nil =>
          rw [pyReplace_cons, if_neg (fun hcon => by simpa using hcon.2),
            pyReplace_nil, collapseQuotes_single]
        | cons d rest2 =>
          by_cases hqq : c = Chr.q ∧ d = Chr.q
          · obtain ⟨hc, hd⟩ := hqq
            subst hc; subst hd
            rw [pyReplace_cons, if_pos ⟨by norm_num, rfl⟩]
            have hdrop : (Chr.q :: Chr.q :: rest2).drop [Chr.q, Chr.q].length = rest2 := rfl
            rw [hdrop, collapseQuotes_pair, List.singleton_append]
            congr 1
            apply ih
            simp only [List.length_cons] at ht
            omega
          · rw [pyReplace_cons, if_neg (fun hcon => hqq (by simpa using hcon.2)),
              collapseQuotes_cons_cons c d rest2 hqq]
            congr 1
            apply ih
            simp only [List.length_cons] at ht ⊢
            omega
  exact key t.length t le_rfl

/-- C3 (amended): `len(message)` is the character count of the text after
each `<|NEWLINE|>` token is removed entirely — contributing zero characters,
not one — and each doubled quote is collapsed to a single quote.  The two
sequential `str.replace` calls agree with the direct character scans
`removeNl` and `collapseQuotes`. -/
theorem msgLen_strip (m : Message) :
    msgLen m = (collapseQuotes (removeNl m.text)).length := by
  unfold msgLen
  rw [pyReplace_nl, pyReplace_qq]

unseal pyReplace in
/-- C3 counterexample: the spec example text reports length 15, not the
claimed 16 — the newline placeholder is deleted, not turned back into one
character. -/
theorem msgLen_cex : msgLen exMsg = 15 ∧ msgLen exMsg ≠ 16 := by decide

/-! ### Date-range, renumbering, search and key-dispatch claims -/

/-- C4: `sent_between(start, end)` is inclusive on both ends, and an omitted
`end` defaults to `start + 24h`, so messages timestamped exactly at `start`
and exactly at `start + 24h` are both included. -/
theorem sentBetween_spec (m : Message) (start e : Int) :
    (sentBetween m start (some e) = true ↔
      start ≤ m.date_time ∧ m.date_time ≤ e) ∧
    (sentBetween m start none = true ↔
      start ≤ m.date_time ∧ m.date_time ≤ start + oneDay) ∧
    (m.date_time = start → sentBetween m start none = true) ∧
    (m.date_time = start + oneDay → sentBetween m start none = true) := by
  unfold sentBetween oneDay
  refine ⟨by simp, by simp, fun h => ?_, fun h => ?_⟩ <;> simp [h]

/-- C4 witness: boundary messages at `start` and at `start + 24h`. -/
theorem sentBetween_spec_witness :
    sentBetween wmA 0 none = true ∧ sentBetween wmB 0 none = true :=
  ⟨(sentBetween_spec wmA 0 0).2.2.1 (by decide),
    (sentBetween_spec wmB 0 0).2.2.2 (by decide)⟩

/-- Renumbering does not change the number of messages. -/
theorem renumberFrom_length (s : Int) (l : List Message) :
    (renumberFrom s l).length = l.length := by
  induction l generalizing s with
  | nil => rfl
  | cons m rest ih => simp [renumberFrom, ih]

/-- Renumbering rewrites exactly the `_num` field, position by position. -/
theorem renumberFrom_get (s : Int) (l : List Message) (i : Nat)
    (h : i < l.length) (h2 : i < (renumberFrom s l).length) :
    (renumberFrom s l).get ⟨i, h2⟩ = { l.get ⟨i, h⟩ with num := s + (i : Int) } := by
  induction l generalizing s i with
  | nil => simp at h
  | cons m rest ih =>
    cases i with
    | zero => simp [renumberFrom]
    | succ j =>
      have hj : j < rest.length := by simpa using h
      have hj2 : j < (renumberFrom (s + 1) rest).length := by
        rw [renumberFrom_length]; exact hj
      have step : (renumberFrom s (m :: rest)).get ⟨j + 1, h2⟩
          = (renumberFrom (s + 1) rest).get ⟨j, hj2⟩ := rfl
      rw [step, ih (s + 1) j hj hj2]
      have : s + 1 + (j : Int) = s + ((j : Int) + 1) := by ring
      rw [this]
      norm_num

/-- C7: after renumbering, the message at 1-based position `i` carries
sequence number `i` (here: 0-based position `i` carries `1 + i`), all other
fields and the list order are unchanged, and the length is preserved. -/
theorem renumber_messages_spec (l : List Message) (i : Nat) (h : i < l.length)
    (h2 : i < (renumberFrom 1 l).length) :
    (renumberFrom 1 l).length = l.length ∧
    (renumberFrom 1 l).get ⟨i, h2⟩ = { l.get ⟨i, h⟩ with num := 1 + (i : Int) } :=
  ⟨renumberFrom_length 1 l, renumberFrom_get 1 l i h h2⟩

/-- C7 witness: a concrete two-message thread; position 2 gets number 2. -/
theorem renumber_messages_spec_witness :
    (renumberFrom 1 [wmA, wmB]).length = [wmA, wmB].length ∧
    (renumberFrom 1 [wmA, wmB]).get ⟨1, by decide⟩ =
      { [wmA, wmB].get ⟨1, by decide⟩ with num := 1 + (1 : Int) } :=
  renumber_messages_spec [wmA, wmB] 1 (by decide) (by decide)

/-- Python substring membership, characterized as an append decomposition. -/
theorem containsStr_iff (t s : List Char) :
    containsStr t s = true ↔ ∃ l r, t = l ++ s ++ r := by
  unfold containsStr
  rw [List.any_eq_true]
  constructor
  · rintro ⟨i, hmem, heq⟩
    rw [beq_iff_eq] at heq
    refine ⟨t.take i, t.drop (i + s.length), ?_⟩
    have hd : t.drop i = s ++ t.drop (i + s.length) := by
      conv_lhs => rw [← List.take_append_drop s.length (t.drop i)]
      rw [heq, List.drop_drop]
    conv_lhs => rw [← List.take_append_drop i t, hd]
    rw [List.append_assoc]
  · rintro ⟨l, r, rfl⟩
    refine ⟨l.length, ?_, ?_⟩
    · rw [List.mem_range]
      simp only [List.append_assoc, List.length_append]
      omega
    · rw [beq_iff_eq, List.append_assoc, List.drop_left, List.take_left]

/-- C8: `contains` is plain substring search, case-sensitive by default and
performed on lowered text and needle when `ignore_case` is set; searching
`Hello` in a message containing only `hello` fails case-sensitively and
succeeds case-insensitively. -/
theorem msgContains_spec (m : Message) (s : List Char) :
    (msgContains m s false = true ↔ ∃ l r, m.text = l ++ s ++ r) ∧
    (msgContains m s true = true ↔
      ∃ l r, pyLower m.text = l ++ pyLower s ++ r) ∧
    msgContains helloMsg "Hello".toList false = false ∧
    msgContains helloMsg "Hello".toList true = true := by
  refine ⟨?_, ?_, by decide, by decide⟩
  · unfold msgContains
    simp only [Bool.false_eq_true, if_false]
    exact containsStr_iff m.text s
  · unfold msgContains
    simp only [if_true]
    exact containsStr_iff (pyLower m.text) (pyLower s)

/-- C10: a key that is neither an `int` nor a `str` falls through both
branches of `Chat.__getitem__`, which therefore returns `None` — no thread
and no exception. -/
theorem chat_getitem_other_none (c : Chat) :
    chatGetItem c PyKey.other = Except.ok none := rfl

/-! ### Sorting of message lists under the Python comparison -/

theorem msgLe_total (a b : Message)
    (hab : a.date_time = b.date_time → (a.num - b.num).natAbs ≤ 9000) :
    msgLe a b = true ∨ msgLe b a = true := by
  have h1 := msgLe_char a b (by intro hdt; have := hab hdt.symm; omega)
  have h2 := msgLe_char b a (by intro hdt; have := hab hdt; omega)
  rw [h1, h2]
  simp only [decide_eq_true_eq]
  omega

theorem msgLe_trans (a b c : Message)
    (hab : a.date_time = b.date_time → (a.num - b.num).natAbs ≤ 9000)
    (hbc : b.date_time = c.date_time → (b.num - c.num).natAbs ≤ 9000)
    (hac : a.date_time = c.date_time → (a.num - c.num).natAbs ≤ 9000)
    (h1 : msgLe a b = true) (h2 : msgLe b c = true) : msgLe a c = true := by
  rw [msgLe_char a b (by intro hdt; have := hab hdt.symm; omega)] at h1
  rw [msgLe_char b c (by intro hdt; have := hbc hdt.symm; omega)] at h2
  rw [msgLe_char a c (by intro hdt; have := hac hdt.symm; omega)]
  simp only [decide_eq_true_eq] at h1 h2 ⊢
  omega

/-- The gap hypothesis, for every pair drawn from a list. -/
def gapOk (l : List Message) : Prop :=
  ∀ a ∈ l, ∀ b ∈ l, a.date_time = b.date_time → (a.num - b.num).natAbs ≤ 9000

instance (l : List Message) : Decidable (gapOk l) := by
  unfold gapOk; infer_instance

/-! Splitting and permutation facts for the CPython sort. -/

/-- `ascRun` splits its input: run plus remainder rebuild the list. -/
theorem ascRun_append {α : Type} (lt : α → α → Bool) (prev : α) (l : List α) :
    (ascRun lt prev l).1 ++ (ascRun lt prev l).2 = l := by
  induction l generalizing prev with
  | nil => rfl
  | cons x rest ih =>
    simp only [ascRun]
    split
    · rfl
    · simp [ih x]

/-- `descRun` splits its input: run plus remainder rebuild the list. -/
theorem descRun_append {α : Type} (lt : α → α → Bool) (prev : α) (l : List α) :
    (descRun lt prev l).1 ++ (descRun lt prev l).2 = l := by
  induction l generalizing prev with
  | nil => rfl
  | cons x rest ih =>
    simp only [descRun]
    split
    · simp [ih x]
    · rfl

/-- A binary insertion permutes the pivot into the prefix. -/
theorem binInsert_perm {α : Type} (lt : α → α → Bool) (pre : List α) (pivot : α) :
    (binInsert lt pre pivot).Perm (pivot :: pre) := by
  unfold binInsert
  refine List.Perm.trans List.perm_middle ?_
  rw [List.take_append_drop]

/-- `binarysort` permutes the pending elements into the prefix. -/
theorem binInsertAll_perm {α : Type} (lt : α → α → Bool) (pre xs : List α) :
    (binInsertAll lt pre xs).Perm (pre ++ xs) := by
  induction xs generalizing pre with
  | nil => simp [binInsertAll]
  | cons x rest ih =>
    simp only [binInsertAll]
    refine (ih (binInsert lt pre x)).trans ?_
    refine (((binInsert_perm lt pre x).append_right rest)).trans ?_
    exact List.perm_middle.symm

/-- CPython's sort is a permutation, for any comparison function. -/
theorem pyTimSort_perm {α : Type} (lt : α → α → Bool) (l : List α) :
    (pyTimSort lt l).Perm l := by
  match l with
  | [] => exact List.Perm.refl _
  | [a] => exact List.Perm.refl _
  | a :: b :: rest =>
    simp only [pyTimSort]
    split
    · refine (binInsertAll_perm lt _ _).trans ?_
      refine (((a :: b :: (descRun lt b rest).1).reverse_perm).append_right _).trans ?_
      rw [show (a :: b :: (descRun lt b rest).1) ++ (descRun lt b rest).2
          = a :: b :: ((descRun lt b rest).1 ++ (descRun lt b rest).2) from rfl,
        descRun_append]
    · refine (binInsertAll_perm lt _ _).trans ?_
      rw [show (a :: b :: (ascRun lt b rest).1) ++ (ascRun lt b rest).2
          = a :: b :: ((ascRun lt b rest).1 ++ (ascRun lt b rest).2) from rfl,
        ascRun_append]

/-- `sorted` on message lists is a permutation of its input. -/
theorem perm_pySortMsgs (l : List Message) : (pySortMsgs l).Perm l :=
  pyTimSort_perm msgLt l

/-- Elements of a sorted prefix, accessed through `getD`, compare as their
positions do. -/
theorem sorted_getD_le {α : Type} (lt : α → α → Bool) (d : α) (a : List α)
    (ha : a.Pairwise (fun x y => lt y x = false)) (i j : Nat)
    (hi : i < a.length) (hj : j < a.length) (hij : i < j) :
    lt (a.getD j d) (a.getD i d) = false := by
  have h := List.pairwise_iff_getElem.mp ha i j hi hj hij
  simpa [List.getElem?_eq_getElem, hi, hj] using h

/-- Correctness of the `binarysort` binary search: starting from an interval
whose outside already satisfies the two search invariants, the returned
position splits the prefix into elements not greater than the pivot and
elements the pivot is less than.  Requires the prefix sorted and the
comparison transitive (in the `le x y = not (lt y x)` sense). -/
theorem binSearchGo_spec {α : Type} (lt : α → α → Bool)
    (T1 : ∀ a b c : α, lt b a = false → lt c b = false → lt c a = false)
    (pivot : α) (a : List α)
    (ha : a.Pairwise (fun x y => lt y x = false)) :
    ∀ (fuel l r : Nat), l ≤ r → r ≤ a.length → r - l ≤ fuel →
      (∀ j, j < l → lt pivot (a.getD j pivot) = false) →
      (∀ j, r ≤ j → j < a.length → lt pivot (a.getD j pivot) = true) →
      l ≤ binSearchGo lt pivot a fuel l r ∧
      binSearchGo lt pivot a fuel l r ≤ r ∧
      (∀ j, j < binSearchGo lt pivot a fuel l r →
        lt pivot (a.getD j pivot) = false) ∧
      (∀ j, binSearchGo lt pivot a fuel l r ≤ j → j < a.length →
        lt pivot (a.getD j pivot) = true) := by
  intro fuel
  induction fuel with
  | zero =>
    intro l r hlr hrlen hfuel hl hr2
    have hEq : l = r := by omega
    simp only [binSearchGo]
    exact ⟨le_rfl, by omega, hl, fun j hj hjlen => hr2 j (by omega) hjlen⟩
  | succ fuel ih =>
    intro l r hlr hrlen hfuel hl hr2
    simp only [binSearchGo]
    by_cases hcond : l < r
    · rw [if_pos hcond]
      have hmid1 : l ≤ (l + r) / 2 := by omega
      have hmid2 : (l + r) / 2 < r := by omega
      by_cases hp : lt pivot (a.getD ((l + r) / 2) pivot) = true
      · rw [if_pos hp]
        have hrec := ih l ((l + r) / 2) hmid1 (by omega) (by omega) hl ?_
        · exact ⟨hrec.1, by omega, hrec.2.2.1, hrec.2.2.2⟩
        · intro j hj hjlen
          rcases Nat.eq_or_lt_of_le hj with hEq | hlt2
          · rw [← hEq]; exact hp
          · by_cases hc : lt pivot (a.getD j pivot) = true
            · exact hc
            · exfalso
              have hcf : lt pivot (a.getD j pivot) = false :=
                Bool.not_eq_true _ ▸ hc
              have hs : lt (a.getD j pivot) (a.getD ((l + r) / 2) pivot) = false :=
                sorted_getD_le lt pivot a ha _ j (by omega) hjlen hlt2
              have := T1 (a.getD ((l + r) / 2) pivot) (a.getD j pivot) pivot hs hcf
              rw [this] at hp
              exact absurd hp (by decide)
      · rw [if_neg hp]
        have hpf : lt pivot (a.getD ((l + r) / 2) pivot) = false :=
          Bool.not_eq_true _ ▸ hp
        have hrec := ih ((l + r) / 2 + 1) r (by omega) hrlen (by omega) ?_ hr2
        · exact ⟨by omega, hrec.2.1, hrec.2.2.1, hrec.2.2.2⟩
        · intro j hj
          rcases Nat.lt_succ_iff_lt_or_eq.mp hj with hlt2 | hEq
          · have hs : lt (a.getD ((l + r) / 2) pivot) (a.getD j pivot) = false :=
              sorted_getD_le lt pivot a ha j _ (by omega) (by omega) hlt2
            exact T1 (a.getD j pivot) (a.getD ((l + r) / 2) pivot) pivot hs hpf
          · rw [hEq]; exact hpf
    · rw [if_neg hcond]
      have hEq : l = r := by omega
      exact ⟨le_rfl, by omega, hl, fun j hj hjlen => hr2 j (by omega) hjlen⟩

/-- Inserting the pivot at the binary-search position keeps the prefix
sorted (comparison transitive and total in the `le` sense). -/
theorem binInsert_pairwise {α : Type} (lt : α → α → Bool)
    (T1 : ∀ a b c : α, lt b a = false → lt c b = false → lt c a = false)
    (T2 : ∀ a b : α, lt a b = false ∨ lt b a = false)
    (pre : List α) (pivot : α)
    (ha : pre.Pairwise (fun x y => lt y x = false)) :
    (binInsert lt pre pivot).Pairwise (fun x y => lt y x = false) := by
  obtain ⟨hp0, hpr, hpre, hsuf⟩ := binSearchGo_spec lt T1 pivot pre ha pre.length 0
    pre.length (by omega) le_rfl (by omega)
    (fun j hj => absurd hj (by omega))
    (fun j hj hjlen => absurd hjlen (by omega))
  unfold binInsert binSearchPos
  set p := binSearchGo lt pivot pre pre.length 0 pre.length with hpdef
  have hpre2 : ∀ j (hj : j < pre.length), j < p → lt pivot pre[j] = false := by
    intro j hj hjp
    have := hpre j hjp
    simpa [List.getElem?_eq_getElem hj] using this
  have hsuf2 : ∀ j (hj : j < pre.length), p ≤ j → lt pivot pre[j] = true := by
    intro j hj hjp
    have := hsuf j hjp hj
    simpa [List.getElem?_eq_getElem hj] using this
  have hsort : ∀ i j (hi : i < pre.length) (hj : j < pre.length), i < j →
      lt pre[j] pre[i] = false := by
    intro i j hi hj hij
    have := sorted_getD_le lt pivot pre ha i j hi hj hij
    simpa [List.getElem?_eq_getElem hi, List.getElem?_eq_getElem hj] using this
  rw [List.pairwise_append]
  refine ⟨List.Pairwise.sublist (List.take_sublist p pre) ha, ?_, ?_⟩
  · rw [List.pairwise_cons]
    refine ⟨?_, List.Pairwise.sublist (List.drop_sublist p pre) ha⟩
    intro y hy
    obtain ⟨j, hj, rfl⟩ := List.mem_iff_getElem.mp hy
    have hjlen : p + j < pre.length := by
      have h2 := hj
      rw [List.length_drop] at h2
      omega
    rw [List.getElem_drop]
    have hlt := hsuf2 (p + j) hjlen (by omega)
    rcases T2 pivot pre[p + j] with hA | hB
    · rw [hlt] at hA
      exact absurd hA (by decide)
    · exact hB
  · intro x hx y hy
    obtain ⟨i, hi, rfl⟩ := List.mem_iff_getElem.mp hx
    have hiplen : i < p := by
      have h2 := hi
      rw [List.length_take] at h2
      omega
    have hilen : i < pre.length := by omega
    rw [List.getElem_take]
    rcases List.mem_cons.mp hy with rfl | hy2
    · exact hpre2 i hilen hiplen
    · obtain ⟨j, hj, rfl⟩ := List.mem_iff_getElem.mp hy2
      have hjlen : p + j < pre.length := by
        have h2 := hj
        rw [List.length_drop] at h2
        omega
      rw [List.getElem_drop]
      exact hsort i (p + j) hilen hjlen (by omega)

/-- `binarysort` keeps the prefix sorted. -/
theorem binInsertAll_pairwise {α : Type} (lt : α → α → Bool)
    (T1 : ∀ a b c : α, lt b a = false → lt c b = false → lt c a = false)
    (T2 : ∀ a b : α, lt a b = false ∨ lt b a = false)
    (pre xs : List α) (ha : pre.Pairwise (fun x y => lt y x = false)) :
    (binInsertAll lt pre xs).Pairwise (fun x y => lt y x = false) := by
  induction xs generalizing pre with
  | nil => exact ha
  | cons x rest ih => exact ih _ (binInsert_pairwise lt T1 T2 pre x ha)

/-- The ascending run extends while the next element is not below the
previous: consecutive elements satisfy `le`. -/
theorem ascRun_chain {α : Type} (lt : α → α → Bool) (prev : α) (l : List α) :
    (prev :: (ascRun lt prev l).1).Chain' (fun x y => lt y x = false) := by
  induction l generalizing prev with
  | nil => simp [ascRun]
  | cons x rest ih =>
    simp only [ascRun]
    split
    · simp
    · rename_i hxp
      exact List.chain'_cons.mpr ⟨by simpa using hxp, ih x⟩

/-- The descending run extends while the next element is strictly below the
previous: consecutive elements satisfy strict `lt`. -/
theorem descRun_chain {α : Type} (lt : α → α → Bool) (prev : α) (l : List α) :
    (prev :: (descRun lt prev l).1).Chain' (fun x y => lt y x = true) := by
  induction l generalizing prev with
  | nil => simp [descRun]
  | cons x rest ih =>
    simp only [descRun]
    split
    · rename_i hxp
      exact List.chain'_cons.mpr ⟨hxp, ih x⟩
    · simp

/-- A `le`-chain is `le`-pairwise when the comparison is transitive. -/
theorem chain_le_pairwise {α : Type} (lt : α → α → Bool)
    (T1 : ∀ a b c : α, lt b a = false → lt c b = false → lt c a = false)
    (l : List α) (h : l.Chain' (fun x y => lt y x = false)) :
    l.Pairwise (fun x y => lt y x = false) := by
  haveI : IsTrans α (fun x y => lt y x = false) := ⟨fun a b c hab hbc => T1 a b c hab hbc⟩
  exact List.chain'_iff_pairwise.mp h

/-- CPython's sort produces a `le`-pairwise list whenever the comparison is
transitive and total in the `le` sense. -/
theorem pyTimSort_pairwise {α : Type} (lt : α → α → Bool)
    (T1 : ∀ a b c : α, lt b a = false → lt c b = false → lt c a = false)
    (T2 : ∀ a b : α, lt a b = false ∨ lt b a = false)
    (l : List α) : (pyTimSort lt l).Pairwise (fun x y => lt y x = false) := by
  match l with
  | [] => simp [pyTimSort]
  | [a] => simp [pyTimSort]
  | a :: b :: rest =>
    simp only [pyTimSort]
    split
    · rename_i hba
      apply binInsertAll_pairwise lt T1 T2
      have hdesc : (a :: b :: (descRun lt b rest).1).Chain' (fun x y => lt y x = true) :=
        List.chain'_cons.mpr ⟨hba, descRun_chain lt b rest⟩
      have hrev : ((a :: b :: (descRun lt b rest).1).reverse).Chain'
          (fun x y => lt x y = true) := List.chain'_reverse.mpr hdesc
      refine chain_le_pairwise lt T1 _ (hrev.imp ?_)
      intro x y hxy
      rcases T2 x y with h | h
      · rw [hxy] at h
        exact absurd h (by decide)
      · exact h
    · rename_i hba
      apply binInsertAll_pairwise lt T1 T2
      apply chain_le_pairwise lt T1
      exact List.chain'_cons.mpr ⟨by simpa using hba, ascRun_chain lt b rest⟩

/-- `getD` commutes with `map`. -/
theorem getD_map_comp {α β : Type} (f : α → β) (a : List α) (i : Nat) (d : α) :
    (a.map f).getD i (f d) = f (a.getD i d) := by
  simp only [List.getD_eq_getElem?_getD, List.getElem?_map]
  cases a[i]? <;> simp

/-- The binary search only looks at comparisons, so it is preserved by any
comparison-respecting map. -/
theorem binSearchGo_map {α β : Type} (ltA : α → α → Bool) (ltB : β → β → Bool)
    (f : α → β) (hc : ∀ x y, ltA x y = ltB (f x) (f y)) (pivot : α) (a : List α) :
    ∀ fuel l r, binSearchGo ltA pivot a fuel l r
      = binSearchGo ltB (f pivot) (a.map f) fuel l r := by
  intro fuel
  induction fuel with
  | zero => intro l r; rfl
  | succ fuel ih =>
    intro l r
    simp only [binSearchGo]
    rw [getD_map_comp, ← hc]
    by_cases hcond : l < r
    · rw [if_pos hcond, if_pos hcond]
      by_cases hp : ltA pivot (a.getD ((l + r) / 2) pivot) = true
      · rw [if_pos hp, if_pos hp, ih]
      · rw [if_neg hp, if_neg hp, ih]
    · rw [if_neg hcond, if_neg hcond]

/-- `binInsert` commutes with a comparison-respecting map. -/
theorem binInsert_map {α β : Type} (ltA : α → α → Bool) (ltB : β → β → Bool)
    (f : α → β) (hc : ∀ x y, ltA x y = ltB (f x) (f y)) (pre : List α) (pivot : α) :
    (binInsert ltA pre pivot).map f = binInsert ltB (pre.map f) (f pivot) := by
  unfold binInsert binSearchPos
  rw [List.map_append, List.map_cons, List.map_take, List.map_drop,
    List.length_map, ← binSearchGo_map ltA ltB f hc]

/-- `binarysort` commutes with a comparison-respecting map. -/
theorem binInsertAll_map {α β : Type} (ltA : α → α → Bool) (ltB : β → β → Bool)
    (f : α → β) (hc : ∀ x y, ltA x y = ltB (f x) (f y)) (pre xs : List α) :
    (binInsertAll ltA pre xs).map f = binInsertAll ltB (pre.map f) (xs.map f) := by
  induction xs generalizing pre with
  | nil => rfl
  | cons x rest ih =>
    simp only [binInsertAll, List.map_cons]
    rw [ih, binInsert_map ltA ltB f hc]

/-- `ascRun` commutes with a comparison-respecting map. -/
theorem ascRun_map {α β : Type} (ltA : α → α → Bool) (ltB : β → β → Bool)
    (f : α → β) (hc : ∀ x y, ltA x y = ltB (f x) (f y)) (prev : α) (l : List α) :
    (ascRun ltA prev l).1.map f = (ascRun ltB (f prev) (l.map f)).1 ∧
    (ascRun ltA prev l).2.map f = (ascRun ltB (f prev) (l.map f)).2 := by
  induction l generalizing prev with
  | nil => exact ⟨rfl, rfl⟩
  | cons x rest ih =>
    simp only [ascRun, List.map_cons]
    rw [← hc]
    by_cases h : ltA x prev = true
    · rw [if_pos h, if_pos h]
      exact ⟨rfl, rfl⟩
    · rw [if_neg h, if_neg h]
      simp only [List.map_cons]
      exact ⟨by rw [(ih x).1], (ih x).2⟩

/-- `descRun` commutes with a comparison-respecting map. -/
theorem descRun_map {α β : Type} (ltA : α → α → Bool) (ltB : β → β → Bool)
    (f : α → β) (hc : ∀ x y, ltA x y = ltB (f x) (f y)) (prev : α) (l : List α) :
    (descRun ltA prev l).1.map f = (descRun ltB (f prev) (l.map f)).1 ∧
    (descRun ltA prev l).2.map f = (descRun ltB (f prev) (l.map f)).2 := by
  induction l generalizing prev with
  | nil => exact ⟨rfl, rfl⟩
  | cons x rest ih =>
    simp only [descRun, List.map_cons]
    rw [← hc]
    by_cases h : ltA x prev = true
    · rw [if_pos h, if_pos h]
      simp only [List.map_cons]
      exact ⟨by rw [(ih x).1], (ih x).2⟩
    · rw [if_neg h, if_neg h]
      exact ⟨rfl, rfl⟩

/-- CPython's sort commutes with a comparison-respecting map. -/
theorem pyTimSort_map {α β : Type} (ltA : α → α → Bool) (ltB : β → β → Bool)
    (f : α → β) (hc : ∀ x y, ltA x y = ltB (f x) (f y)) (l : List α) :
    (pyTimSort ltA l).map f = pyTimSort ltB (l.map f) := by
  match l with
  | [] => rfl
  | [a] => rfl
  | a :: b :: rest =>
    simp only [pyTimSort, List.map_cons]
    rw [← hc]
    by_cases h : ltA b a = true
    · rw [if_pos h, if_pos h]
      rw [binInsertAll_map ltA ltB f hc, List.map_reverse, List.map_cons, List.map_cons,
        (descRun_map ltA ltB f hc b rest).1, (descRun_map ltA ltB f hc b rest).2]
    · rw [if_neg h, if_neg h]
      rw [binInsertAll_map ltA ltB f hc, List.map_cons, List.map_cons,
        (ascRun_map ltA ltB f hc b rest).1, (ascRun_map ltA ltB f hc b rest).2]

/-- On gap-free message lists, `sorted` produces a list that is pairwise
nondecreasing under the message comparison. -/
theorem pairwise_pySortMsgs (l : List Message) (H : gapOk l) :
    (pySortMsgs l).Pairwise (fun a b => msgLe a b = true) := by
  unfold pySortMsgs
  have T1 : ∀ a b c : {m // m ∈ l},
      msgLt b.1 a.1 = false → msgLt c.1 b.1 = false → msgLt c.1 a.1 = false := by
    intro a b c h1 h2
    have hle := msgLe_trans a.1 b.1 c.1 (H _ a.2 _ b.2) (H _ b.2 _ c.2) (H _ a.2 _ c.2)
      (by simp [msgLe, h1]) (by simp [msgLe, h2])
    simpa [msgLe] using hle
  have T2 : ∀ a b : {m // m ∈ l}, msgLt a.1 b.1 = false ∨ msgLt b.1 a.1 = false := by
    intro a b
    rcases msgLe_total a.1 b.1 (H _ a.2 _ b.2) with h | h
    · right
      simpa [msgLe] using h
    · left
      simpa [msgLe] using h
  have hmap : (pyTimSort (fun x y : {m // m ∈ l} => msgLt x.1 y.1) l.attach).map
      Subtype.val = pyTimSort msgLt l := by
    rw [pyTimSort_map (fun x y : {m // m ∈ l} => msgLt x.1 y.1) msgLt Subtype.val
      (fun x y => rfl), List.attach_map_subtype_val]
  have hsor := pyTimSort_pairwise (fun x y : {m // m ∈ l} => msgLt x.1 y.1) T1 T2 l.attach
  rw [← hmap]
  refine List.pairwise_map.mpr (hsor.imp ?_)
  intro a b h
  simp [msgLe, h]

/-- C6 (amended): merging appends and re-sorts — the result is always a
permutation of the old messages followed by the new ones (no deduplication:
multiplicities are preserved), and whenever the combined messages avoid the
9000 wrap-around gap at equal timestamps, the result — like a freshly
constructed thread — is sorted under the message order.  (Sortedness fails
on wrap-around inputs; see the counterexample.) -/
theorem thread_merge_spec (t : Thread) (ms : List Message) :
    (addMessages t ms).messages.Perm (t.messages ++ ms) ∧
    (gapOk (t.messages ++ ms) →
      (addMessages t ms).messages.Pairwise (fun a b => msgLe a b = true)) ∧
    (∀ (people : List String) (init : List Message),
      (mkThread people init).messages.Perm init ∧
      (gapOk init →
        (mkThread people init).messages.Pairwise (fun a b => msgLe a b = true))) :=
  ⟨perm_pySortMsgs _,
    fun H => pairwise_pySortMsgs _ H,
    fun _ init => ⟨perm_pySortMsgs init, fun H => pairwise_pySortMsgs init H⟩⟩

/-- C6 counterexample: merging three same-timestamp messages straddling the
9000 gap into an empty thread leaves `[10000, 1, 5000]` unchanged — the
whole input is one ascending run under the wrap-around comparison, so the
sort inserts nothing — and the result is not sorted under the Message
order: the last message is `__lt__`-below the first. -/
theorem thread_merge_cex :
    (addMessages thEmpty [mWrapHi, mWrapLo, mMid]).messages =
      [mWrapHi, mWrapLo, mMid] ∧
    ¬ (addMessages thEmpty [mWrapHi, mWrapLo, mMid]).messages.Pairwise
        (fun a b => msgLe a b = true) := by
  refine ⟨by decide, fun hp => ?_⟩
  rw [show (addMessages thEmpty [mWrapHi, mWrapLo, mMid]).messages =
    [mWrapHi, mWrapLo, mMid] by decide] at hp
  rw [List.pairwise_cons] at hp
  have h := hp.1 mMid (by simp)
  exact absurd h (by decide)

/-- C6 witness: the amended theorem applied to a concrete gap-free merge. -/
theorem thread_merge_spec_witness :
    (addMessages thEmpty [wmA, wmB]).messages.Pairwise
      (fun a b => msgLe a b = true) :=
  (thread_merge_spec thEmpty [wmA, wmB]).2.1 (by decide)

/-! ### Thread ordering inside a Chat -/

theorem threadGe_trans : ∀ (a b c : Thread),
    threadGe a b → threadGe b c → threadGe a c := by
  intro a b c h1 h2
  simp only [threadGe, decide_eq_true_eq] at h1 h2 ⊢
  omega

theorem threadGe_total : ∀ (a b : Thread), threadGe a b || threadGe b a := by
  intro a b
  simp only [threadGe, Bool.or_eq_true, decide_eq_true_eq]
  omega

theorem filter_mergeSort_len_eq (ts : List Thread) (k : Nat) :
    (ts.mergeSort threadGe).filter (fun t => t.messages.length == k)
      = ts.filter (fun t => t.messages.length == k) := by
  have hpair : (ts.filter (fun t => t.messages.length == k)).Pairwise
      (fun a b => threadGe a b = true) := by
    apply List.pairwise_of_forall_mem_list
    intro a ha b hb
    rw [List.mem_filter] at ha hb
    simp only [beq_iff_eq] at ha hb
    simp only [threadGe, decide_eq_true_eq]
    omega
  have hsub := List.sublist_mergeSort threadGe_trans threadGe_total hpair
    (List.filter_sublist ts)
  have hperm : ((ts.mergeSort threadGe).filter
        (fun t => t.messages.length == k)).Perm
      (ts.filter (fun t => t.messages.length == k)) :=
    (List.mergeSort_perm ts threadGe).filter _
  have hsub2 := hsub.filter (fun t => t.messages.length == k)
  rw [List.filter_filter] at hsub2
  have hff : ts.filter (fun t => (t.messages.length == k) && (t.messages.length == k))
      = ts.filter (fun t => t.messages.length == k) := by
    congr 1
    funext t
    rw [Bool.and_self]
  rw [hff] at hsub2
  exact (hsub2.eq_of_length hperm.length_eq.symm).symm

unseal List.merge List.mergeSort in
/-- C5: `Chat.__init__` stores the threads sorted by descending message
count; the sort is a permutation, it is stable (the threads of any fixed
size appear in their original relative order), and the spec fixture with
sizes `[5, 3, 3, 8]` comes out as `[8, 5, 3, 3]` with the two size-3
threads in input order. -/
theorem chat_threads_sorted (myname : String) (ts : List Thread) :
    (mkChat myname ts).threads.Perm ts ∧
    (mkChat myname ts).threads.Pairwise
      (fun a b => b.messages.length ≤ a.messages.length) ∧
    (∀ k : Nat, (mkChat myname ts).threads.filter (fun t => t.messages.length == k)
        = ts.filter (fun t => t.messages.length == k)) ∧
    (mkChat "Me" [thA5, thB3, thC3, thD8]).threads = [thD8, thA5, thB3, thC3] := by
  refine ⟨List.mergeSort_perm ts threadGe, ?_, fun k => filter_mergeSort_len_eq ts k,
    by decide⟩
  have hs := List.sorted_mergeSort threadGe_trans threadGe_total ts
  exact hs.imp (by intro a b h; simpa [threadGe] using h)

/-! ### Chat lookup -/

/-- C9: looking a Chat up by a string key returns a thread whose comma-joined
participant label equals the key and which belongs to the chat, fails with
`KeyError` exactly when no stored thread carries the label (no synthetic
default), and an in-range integer key returns the thread at that position of
the sorted sequence. -/
theorem chat_lookup_spec (myname : String) (ts : List Thread) (k : String) :
    (∀ t : Thread, chatGetItem (mkChat myname ts) (.str k) = .ok (some t) →
      threadLabel t = k ∧ t ∈ (mkChat myname ts).threads) ∧
    (chatGetItem (mkChat myname ts) (.str k) = .error .keyError ↔
      ∀ t ∈ (mkChat myname ts).threads, threadLabel t ≠ k) ∧
    (∀ (i : Nat) (h : i < (mkChat myname ts).threads.length),
      chatGetItem (mkChat myname ts) (.int i) =
        .ok (some ((mkChat myname ts).threads.get ⟨i, h⟩))) := by
  have hred : chatGetItem (mkChat myname ts) (.str k)
      = Except.map some (threadDictGet (mkChat myname ts) k) := rfl
  refine ⟨?_, ?_, ?_⟩
  · intro t ht
    rw [hred] at ht
    unfold threadDictGet at ht
    cases hfind : (mkChat myname ts).threads.reverse.find?
        (fun u => threadLabel u == k) with
    | none => rw [hfind] at ht; simp [Except.map] at ht
    | some u =>
      rw [hfind] at ht
      simp only [Except.map, Except.ok.injEq, Option.some.injEq] at ht
      subst ht
      have h1 := List.find?_some hfind
      have h2 := List.mem_of_find?_eq_some hfind
      rw [beq_iff_eq] at h1
      exact ⟨h1, List.mem_reverse.mp h2⟩
  · rw [hred]
    unfold threadDictGet
    cases hfind : (mkChat myname ts).threads.reverse.find?
        (fun u => threadLabel u == k) with
    | none =>
      constructor
      · intro _ t htmem hlab
        have hnone := List.find?_eq_none.mp hfind t (List.mem_reverse.mpr htmem)
        rw [hlab] at hnone
        simp at hnone
      · intro _; rfl
    | some u =>
      constructor
      · intro habs; simp [Except.map] at habs
      · intro hall
        have h1 := List.find?_some hfind
        have h2 := List.mem_of_find?_eq_some hfind
        rw [beq_iff_eq] at h1
        exact absurd h1 (hall u (List.mem_reverse.mp h2))
  · intro i h
    have hred2 : chatGetItem (mkChat myname ts) (.int i)
        = Except.map some (pyIndex (mkChat myname ts).threads i) := rfl
    rw [hred2]
    unfold pyIndex
    have h0 : ¬((i : Int) < 0) := by
      simp [Int.natCast_nonneg]
    simp only [h0, if_false]
    rw [dif_pos ⟨Int.natCast_nonneg i, by simpa using h⟩]
    simp [Except.map]

unseal List.merge List.mergeSort in
/-- C9 witness: a concrete one-thread chat looked up by its exact label. -/
theorem chat_lookup_spec_witness :
    threadLabel thAB = "Alice, Bob" ∧ thAB ∈ (mkChat "Me" [thAB]).threads :=
  (chat_lookup_spec "Me" [thAB] "Alice, Bob").1 thAB rfl

end FbChat
